import Mathlib

/-!
Shallow embedding of the Robin Hood hash table `BenchRHH` from
`src/benchmark_rhh.cpp` (struct `Bucket`, class `BenchRHH` with methods
`insert`, `find`, the static `hash` function, and the constructor), together
with proofs of the specification claims about it.

Machine integers (`uint64_t`, `size_t`) are modelled as `Nat` with explicit
reduction modulo `2 ^ 64` wherever C++ overflow semantics matter (the hash
multiplication, and the `cap_ - 1` computation in the constructor, which
wraps for `cap_ = 0`).  The `psl` field and the probe distance `d` of `find`
are `int16_t` in the source; they are modelled as `Int` together with the
narrowing conversion `wrap16` (twos-complement wrap into `[-2^15, 2^15)`),
applied exactly where the source increments an `int16_t`; the `<`
comparisons on them are the signed comparisons of the source.

The `find` loop in the source is `while (true)` with no iteration bound, so
it is embedded with an explicit fuel argument counting slot probes:
`none` means the loop did not return within the given number of probes.
-/

namespace RHH

/-- One slot of the table, mirroring `struct Bucket` (key, value, psl,
occupied).  `calloc` zero-initialisation makes the all-zero bucket the empty
slot. -/
structure Bucket where
  key : Nat
  value : Nat
  psl : Int
  occupied : Bool
deriving DecidableEq

/-- The all-zero bucket produced by `calloc`: an unoccupied slot. -/
def zeroBucket : Bucket := ⟨0, 0, 0, false⟩

/-- Narrowing of an integer to the `int16_t` it converts to in C++
(twos-complement wrap-around): the result lies in `[-2^15, 2^15)` and is
congruent to the input modulo `2^16`. -/
def wrap16 (x : Int) : Int := (x + 2 ^ 15) % 2 ^ 16 - 2 ^ 15

/-- The avalanche mixer `BenchRHH::hash`:
`k ^= k >> 33; k *= 0xff51afd7ed558ccd; k ^= k >> 33;` on `uint64_t`. -/
def hash (k : Nat) : Nat :=
  let k0 := k % 2 ^ 64
  let k1 := k0 ^^^ (k0 >>> 33)
  let k2 := (k1 * 0xff51afd7ed558ccd) % 2 ^ 64
  k2 ^^^ (k2 >>> 33)

/-- The table state, mirroring the fields of `class BenchRHH`:
the slot array `table_`, capacity `cap_`, cached mask `mask_` and the
occupied-slot counter `size_`. -/
structure BenchRHH where
  table_ : List Bucket
  cap_ : Nat
  mask_ : Nat
  size_ : Nat
deriving DecidableEq

/-- The constructor `BenchRHH(size_t c)`: stores `cap_ = c`,
`mask_ = cap_ - 1` (on `size_t`, so it wraps modulo `2 ^ 64` when `c = 0`),
and `calloc`s `c` zeroed slots; `size_` starts at 0.  There is no validation
of `c` whatsoever in the source. -/
def BenchRHH.new (c : Nat) : BenchRHH :=
  { table_ := List.replicate c zeroBucket
    cap_ := c
    mask_ := (c + (2 ^ 64 - 1)) % 2 ^ 64
    size_ := 0 }

/-- The bucket stored at index `i` (the all-zero bucket out of range). -/
def slotAt (t : List Bucket) (i : Nat) : Bucket := t.getD i zeroBucket

/-- The probe loop of `BenchRHH::insert`.  `mask` and `k` are the loop
constants from the source (`mask_` and the inserted key; note the duplicate
check compares `entry.key` with `k`, not with `curr.key`).  The fuel
argument is the remaining value of the `probes` counter, initially `cap_`.
Returns the updated slot array together with `true` iff the `size_++`
branch (placement into an empty slot) was taken. -/
def insertLoop (mask k : Nat) : Nat → List Bucket → Bucket → Nat → List Bucket × Bool
  | 0, t, _, _ => (t, false)
  | fuel + 1, t, curr, idx =>
    let entry := slotAt t idx
    if entry.occupied = false then (t.set idx curr, true)
    else if entry.key = k then (t, false)
    else if entry.psl < curr.psl then
      insertLoop mask k fuel (t.set idx curr)
        { entry with psl := wrap16 (entry.psl + 1) } ((idx + 1) &&& mask)
    else
      insertLoop mask k fuel t { curr with psl := wrap16 (curr.psl + 1) } ((idx + 1) &&& mask)

/-- `BenchRHH::insert(k, v)`: starts the probe loop at `hash(k) & mask_`
with the candidate record `{k, v, 0, true}` and at most `cap_` probes;
`size_` is incremented exactly when the loop placed the candidate into an
empty slot. -/
def BenchRHH.insert (s : BenchRHH) (k v : Nat) : BenchRHH :=
  let r := insertLoop s.mask_ k s.cap_ s.table_ ⟨k, v, 0, true⟩ (hash k &&& s.mask_)
  { s with table_ := r.1, size_ := if r.2 then s.size_ + 1 else s.size_ }

/-- The probe loop of `BenchRHH::find` (a `while (true)` loop in the
source), with fuel counting slot probes: `none` means the loop did not
return within the given number of probes; `some none` is `return false`
(not found); `some (some v)` is `return true` with out-value `v`. -/
def findLoop (mask : Nat) (t : List Bucket) (k : Nat) : Nat → Nat → Int → Option (Option Nat)
  | 0, _, _ => none
  | fuel + 1, idx, d =>
    let entry := slotAt t idx
    if entry.occupied = false then some none
    else if entry.psl < d then some none
    else if entry.key = k then some (some entry.value)
    else findLoop mask t k fuel ((idx + 1) &&& mask) (wrap16 (d + 1))

/-- `BenchRHH::find(k, v)`: probes from `hash(k) & mask_` with `d = 0`.
The extra `fuel` argument bounds the number of probes of the unbounded
source loop. -/
def BenchRHH.find (s : BenchRHH) (k : Nat) (fuel : Nat) : Option (Option Nat) :=
  findLoop s.mask_ s.table_ k fuel (hash k &&& s.mask_) 0

/-- A table reached from `BenchRHH(c)` by the given sequence of
`insert(key, value)` calls. -/
def buildTable (c : Nat) (ops : List (Nat × Nat)) : BenchRHH :=
  ops.foldl (fun s p => s.insert p.1 p.2) (BenchRHH.new c)

/-- Number of occupied slots of a slot array. -/
def countOccupied (t : List Bucket) : Nat :=
  t.countP (fun b => b.occupied)

/-- The pair `(q, w)` is stored in the slot array: some slot is occupied and
holds key `q` with value `w`. -/
def pairIn (t : List Bucket) (q w : Nat) : Prop :=
  ∃ i, i < t.length ∧ (slotAt t i).occupied = true ∧
    (slotAt t i).key = q ∧ (slotAt t i).value = w

/-- The key `q` occupies some slot of the array. -/
def keyIn (t : List Bucket) (q : Nat) : Prop :=
  ∃ i, i < t.length ∧ (slotAt t i).occupied = true ∧
    (slotAt t i).key = q

/-- Ideal slot of key `k` in a table of capacity `c`: `hash(k) & (c - 1)`
expressed through the modulus (the two agree for power-of-two `c`). -/
def ideal (c k : Nat) : Nat := hash k % c

/-- Displacement of slot `i` from ideal position `a` in a table of
capacity `c`, i.e. `(i - a) mod c` computed without going negative. -/
def dispOf (c i a : Nat) : Nat := (c + i - a) % c

/-- Wrapped PSL invariant: every occupied slot stores as `psl` the
`int16_t` narrowing of its exact displacement from the ideal slot of its
key.  The stored value is produced by starting at 0 and applying the
wrapped increment once per probe, so it is the wrapped displacement. -/
def PslW (c : Nat) (t : List Bucket) : Prop :=
  ∀ i, i < c → (slotAt t i).occupied = true →
    (slotAt t i).psl =
      wrap16 ((dispOf c i (ideal c (slotAt t i).key) : Nat) : Int)

/-- Probe-path invariant: every slot strictly before a stored key on that
key’s probe path is occupied, and its stored `psl` is at least the wrapped
probe distance in the signed `int16_t` order.  Since `find` compares its
wrapped distance `d` against the stored `psl` with exactly this order, the
invariant is what keeps the early-termination exit (and the swap test of a
duplicate insert, which uses the same comparison) from firing before the
stored key is reached.  It is stable over time because a Robin Hood swap
only ever replaces a stored `psl` by a strictly larger one in the signed
order. -/
def PathInv (c : Nat) (t : List Bucket) : Prop :=
  ∀ i, i < c → (slotAt t i).occupied = true →
    ∀ p, p < dispOf c i (ideal c (slotAt t i).key) →
      (slotAt t ((ideal c (slotAt t i).key + p) % c)).occupied = true ∧
        wrap16 (p : Int) ≤ (slotAt t ((ideal c (slotAt t i).key + p) % c)).psl

/-- Key distinctness: no two distinct occupied slots hold the same key. -/
def DistinctKeys (c : Nat) (t : List Bucket) : Prop :=
  ∀ i j, i < c → j < c → (slotAt t i).occupied = true →
    (slotAt t j).occupied = true → (slotAt t i).key = (slotAt t j).key → i = j

/-- Every invariant of a well-formed reachable table state: power-of-two
capacity with cached mask, slot-array length, the wrapped PSL and
probe-path invariants, distinct keys, and the size counter agreeing with
the number of occupied slots. -/
structure Good (s : BenchRHH) : Prop where
  pow : ∃ e, e < 64 ∧ s.cap_ = 2 ^ e
  mask : s.mask_ = s.cap_ - 1
  len : s.table_.length = s.cap_
  pslw : PslW s.cap_ s.table_
  path : PathInv s.cap_ s.table_
  dk : DistinctKeys s.cap_ s.table_
  size : s.size_ = countOccupied s.table_

/-- The slot-array shape of the saturated capacity-`2 ^ 15` table used in
the non-termination analysis of `find`: every slot `j` occupied with
`psl = j` (see the saturated-table section below for how this shape is
reached and what the key/value placeholders stand for). -/
def satTable : List Bucket :=
  (List.range (2 ^ 15)).map (fun j => ⟨j, j, (j : Int), true⟩)

/-! ### Basic list and index lemmas -/

theorem slotAt_set_self (l : List Bucket) {i : Nat} (b : Bucket) (h : i < l.length) :
    slotAt (l.set i b) i = b := by
  simp [slotAt, List.getD_eq_getElem?_getD, List.getElem?_set_self h]

theorem slotAt_set_ne (l : List Bucket) {i j : Nat} (b : Bucket) (h : i ≠ j) :
    slotAt (l.set i b) j = slotAt l j := by
  simp [slotAt, List.getD_eq_getElem?_getD, List.getElem?_set_ne h]

theorem countOccupied_le_length (l : List Bucket) : countOccupied l ≤ l.length :=
  List.countP_le_length _

theorem countOccupied_set (l : List Bucket) {i : Nat} (b : Bucket) (h : i < l.length) :
    countOccupied (l.set i b) + (if (slotAt l i).occupied then 1 else 0)
      = countOccupied l + (if b.occupied then 1 else 0) := by
  induction l generalizing i with
  | nil => simp at h
  | cons hd tl ih =>
    cases i with
    | zero =>
      simp [countOccupied, slotAt, List.countP_cons]
      rcases hd.occupied with _ | _ <;> rcases b.occupied with _ | _ <;> simp
    | succ n =>
      have hn : n < tl.length := by simpa using h
      have ih2 := ih hn
      have hset : (hd :: tl).set (n + 1) b = hd :: tl.set n b := rfl
      have hs : slotAt (hd :: tl) (n + 1) = slotAt tl n := by simp [slotAt]
      rw [hset, hs]
      simp only [countOccupied, List.countP_cons] at ih2 ⊢
      omega

theorem exists_unoccupied (l : List Bucket) (h : countOccupied l < l.length) :
    ∃ i, i < l.length ∧ (slotAt l i).occupied = false := by
  induction l with
  | nil => simp at h
  | cons hd tl ih =>
    by_cases hocc : hd.occupied
    · have htl : countOccupied tl < tl.length := by
        simp [countOccupied, List.countP_cons, hocc] at h
        simpa [countOccupied] using h
      obtain ⟨i, hi, hio⟩ := ih htl
      exact ⟨i + 1, by simpa using hi, by simpa [slotAt] using hio⟩
    · exact ⟨0, by simp, by simpa [slotAt] using hocc⟩

theorem all_occupied_of_count (l : List Bucket) (h : countOccupied l = l.length) :
    ∀ i, i < l.length → (slotAt l i).occupied = true := by
  have hall : ∀ b ∈ l, b.occupied = true := by
    intro b hb
    exact List.countP_eq_length.mp h b hb
  intro i hi
  have hs : slotAt l i = l[i] := List.getD_eq_getElem l zeroBucket hi
  rw [hs]
  exact hall _ (List.getElem_mem hi)

theorem land_mask (e x : Nat) : x &&& (2 ^ e - 1) = x % 2 ^ e :=
  Nat.and_pow_two_sub_one_eq_mod x e

theorem wrap_cancel {c a i : Nat} (hi : i < c) (ha : a ≤ c) :
    (a + (c + i - a) % c) % c = i := by
  have h1 : a + (c + i - a) = i + c := by omega
  rw [Nat.add_mod_mod, h1, Nat.add_mod_right, Nat.mod_eq_of_lt hi]
theorem dispOf_lt {c : Nat} (hc : 0 < c) (i a : Nat) : dispOf c i a < c :=
  Nat.mod_lt _ hc
theorem add_mod_inj {c a o D : Nat} (ho : o < c) (hD : D < c)
    (h : (a + o) % c = (a + D) % c) : o = D := by
  have h2 : o ≡ D [MOD c] := Nat.ModEq.add_left_cancel (Nat.ModEq.refl a) h
  have h3 : o % c = D % c := h2
  rwa [Nat.mod_eq_of_lt ho, Nat.mod_eq_of_lt hD] at h3

theorem lt_length_of_occupied {t : List Bucket} {i : Nat}
    (h : (slotAt t i).occupied = true) : i < t.length := by
  by_contra hge
  rw [slotAt, List.getD_eq_default t zeroBucket (Nat.le_of_not_lt hge)] at h
  simp [zeroBucket] at h

/-! ### Arithmetic of the int16_t narrowing -/

theorem wrap16_eq_self {x : Int} (h1 : -(2 ^ 15) ≤ x) (h2 : x < 2 ^ 15) :
    wrap16 x = x := by
  unfold wrap16
  rw [Int.emod_eq_of_lt (by omega) (by omega)]
  omega

theorem wrap16_natCast {U : Nat} (h : U < 2 ^ 15) : wrap16 (U : Int) = (U : Int) := by
  have h1 : (0 : Int) ≤ (U : Int) := Int.natCast_nonneg U
  have h2 : (U : Int) < 2 ^ 15 := by exact_mod_cast h
  exact wrap16_eq_self (by omega) h2

theorem wrap16_succ (x : Int) : wrap16 (wrap16 x + 1) = wrap16 (x + 1) := by
  unfold wrap16
  have h1 : (x + 2 ^ 15) % 2 ^ 16 - 2 ^ 15 + 1 + 2 ^ 15 = (x + 2 ^ 15) % 2 ^ 16 + 1 := by
    ring
  rw [h1, Int.emod_add_emod]
  have h2 : x + 2 ^ 15 + 1 = x + 1 + 2 ^ 15 := by ring
  rw [h2]

theorem wrap16_cast_succ (n : Nat) :
    wrap16 ((n : Int) + 1) = wrap16 ((n + 1 : Nat) : Int) := rfl

theorem wrap16_add_mul (x n : Int) : wrap16 (x + 2 ^ 16 * n) = wrap16 x := by
  unfold wrap16
  have h1 : x + 2 ^ 16 * n + 2 ^ 15 = x + 2 ^ 15 + 2 ^ 16 * n := by ring
  rw [h1, Int.add_mul_emod_self_left]

theorem wrap16_mod_of_dvd {c : Nat} (hdvd : 2 ^ 16 ∣ c) (U : Nat) :
    wrap16 ((U % c : Nat) : Int) = wrap16 (U : Int) := by
  obtain ⟨m, hm⟩ := hdvd
  have h0 : U % c + c * (U / c) = U := Nat.mod_add_div U c
  have h1 : (U : Int) =
      ((U % c : Nat) : Int) + 2 ^ 16 * ((m : Int) * ((U / c : Nat) : Int)) := by
    have h2 : ((U % c + c * (U / c) : Nat) : Int) = (U : Int) := by
      exact_mod_cast congrArg (Nat.cast : Nat → Int) h0
    rw [← h2, hm]
    push_cast
    ring
  rw [h1, wrap16_add_mul]

theorem dispOf_add_mod {c : Nat} (hc : 0 < c) {a : Nat} (ha : a < c) (U : Nat) :
    dispOf c ((a + U) % c) a = U % c := by
  unfold dispOf
  have hmlt : (a + U) % c < c := Nat.mod_lt _ hc
  have h1 : c + (a + U) % c - a = (c - a) + (a + U) % c := by omega
  rw [h1, Nat.add_mod_mod]
  have h2 : c - a + (a + U) = U + c := by omega
  rw [h2, Nat.add_mod_right]

/-! ### Insertion loop lemmas -/

theorem insertLoop_succ (mask k fuel : Nat) (t : List Bucket) (curr : Bucket) (idx : Nat) :
    insertLoop mask k (fuel + 1) t curr idx =
      if (slotAt t idx).occupied = false then (t.set idx curr, true)
      else if (slotAt t idx).key = k then (t, false)
      else if (slotAt t idx).psl < curr.psl then
        insertLoop mask k fuel (t.set idx curr)
          { slotAt t idx with psl := wrap16 ((slotAt t idx).psl + 1) } ((idx + 1) &&& mask)
      else
        insertLoop mask k fuel t { curr with psl := wrap16 (curr.psl + 1) } ((idx + 1) &&& mask) := rfl

theorem add_mod_ne_self {c idx j : Nat} (hidx : idx < c) (hj : 0 < j) (hjc : j < c) :
    (idx + j) % c ≠ idx := by
  intro h
  have h0 : (idx + 0) % c = idx := by
    simpa using Nat.mod_eq_of_lt hidx
  have h2 : (idx + j) % c = (idx + 0) % c := by rw [h, h0]
  have := add_mod_inj hjc (by omega) h2
  omega

theorem insertLoop_length (mask k : Nat) :
    ∀ fuel t curr idx, (insertLoop mask k fuel t curr idx).1.length = t.length := by
  intro fuel
  induction fuel with
  | zero => intro t curr idx; simp [insertLoop]
  | succ fuel ih =>
    intro t curr idx
    rw [insertLoop_succ]
    rcases hoc : (slotAt t idx).occupied with _ | _
    · simp [hoc]
    · by_cases hk : (slotAt t idx).key = k
      · simp [hoc, hk]
      · by_cases hswap : (slotAt t idx).psl < curr.psl
        · rw [if_neg (by simp [hoc]), if_neg hk, if_pos hswap]
          rw [ih]
          simp
        · rw [if_neg (by simp [hoc]), if_neg hk, if_neg hswap]
          exact ih _ _ _

theorem pairIn_of_pairIn_set {t : List Bucket} {i : Nat} {b : Bucket} {q w : Nat}
    (h : pairIn (t.set i b) q w) :
    pairIn t q w ∨ (q = b.key ∧ w = b.value) := by
  obtain ⟨j, hj, hocc, hkey, hval⟩ := h
  rw [List.length_set] at hj
  by_cases hij : i = j
  · subst hij
    by_cases hlt : i < t.length
    · rw [slotAt_set_self t b hlt] at hocc hkey hval
      exact Or.inr ⟨hkey.symm, hval.symm⟩
    · omega
  · rw [slotAt_set_ne t b hij] at hocc hkey hval
    exact Or.inl ⟨j, hj, hocc, hkey, hval⟩

theorem insertLoop_pairs_subset (mask k : Nat) :
    ∀ fuel t curr idx q w,
      pairIn (insertLoop mask k fuel t curr idx).1 q w →
      pairIn t q w ∨ (q = curr.key ∧ w = curr.value) := by
  intro fuel
  induction fuel with
  | zero => intro t curr idx q w h; exact Or.inl h
  | succ fuel ih =>
    intro t curr idx q w h
    rw [insertLoop_succ] at h
    rcases hoc : (slotAt t idx).occupied with _ | _
    · rw [if_pos (by simp [hoc])] at h
      exact pairIn_of_pairIn_set h
    · rw [if_neg (by simp [hoc])] at h
      by_cases hk : (slotAt t idx).key = k
      · rw [if_pos hk] at h
        exact Or.inl h
      · rw [if_neg hk] at h
        by_cases hswap : (slotAt t idx).psl < curr.psl
        · rw [if_pos hswap] at h
          rcases ih _ _ _ _ _ h with h2 | h2
          · rcases pairIn_of_pairIn_set h2 with h3 | h3
            · exact Or.inl h3
            · exact Or.inr h3
          · refine Or.inl ⟨idx, lt_length_of_occupied hoc, hoc, ?_, ?_⟩ <;>
              simp only at h2 <;> omega
        · rw [if_neg hswap] at h
          rcases ih _ _ _ _ _ h with h2 | h2
          · exact Or.inl h2
          · exact Or.inr h2

theorem insertLoop_count {c mask k : Nat} (hmask : ∀ x, x &&& mask = x % c)
    (hc : 0 < c) :
    ∀ fuel t curr idx, t.length = c → idx < c → curr.occupied = true →
      countOccupied (insertLoop mask k fuel t curr idx).1 =
        countOccupied t +
          (if (insertLoop mask k fuel t curr idx).2 then 1 else 0) := by
  intro fuel
  induction fuel with
  | zero => intro t curr idx _ _ _; simp [insertLoop]
  | succ fuel ih =>
    intro t curr idx hlen hidx hcurr
    have hil : idx < t.length := by omega
    rw [insertLoop_succ]
    rcases hoc : (slotAt t idx).occupied with _ | _
    · rw [if_pos (by simp [hoc])]
      have := countOccupied_set t curr hil
      simp [hoc, hcurr] at this
      simp [this]
    · rw [if_neg (by simp [hoc])]
      by_cases hk : (slotAt t idx).key = k
      · simp [hk]
      · rw [if_neg hk]
        by_cases hswap : (slotAt t idx).psl < curr.psl
        · rw [if_pos hswap]
          have hset := countOccupied_set t curr hil
          simp [hoc, hcurr] at hset
          have hrec := ih (t.set idx curr) { slotAt t idx with psl := wrap16 ((slotAt t idx).psl + 1) }
            ((idx + 1) &&& mask) (by simp [hlen]) (by rw [hmask]; exact Nat.mod_lt _ hc)
            (by simp [hoc])
          rw [hrec, hset]
        · rw [if_neg hswap]
          exact ih t { curr with psl := wrap16 (curr.psl + 1) } ((idx + 1) &&& mask) hlen
            (by rw [hmask]; exact Nat.mod_lt _ hc) (by simp [hcurr])

theorem insertLoop_flag_true {c mask k : Nat} (hmask : ∀ x, x &&& mask = x % c)
    (hc : 0 < c) :
    ∀ fuel t curr idx, t.length = c → idx < c → fuel ≤ c →
      (∃ j, j < fuel ∧ (slotAt t ((idx + j) % c)).occupied = false) →
      (∀ j, j < fuel → (slotAt t ((idx + j) % c)).occupied = true →
        (slotAt t ((idx + j) % c)).key ≠ k) →
      (insertLoop mask k fuel t curr idx).2 = true := by
  intro fuel
  induction fuel with
  | zero => intro t curr idx _ _ _ hemp _; obtain ⟨j, hj, _⟩ := hemp; omega
  | succ fuel ih =>
    intro t curr idx hlen hidx hfc hemp hkw
    have hid0 : (idx + 0) % c = idx := by simpa using Nat.mod_eq_of_lt hidx
    rw [insertLoop_succ]
    rcases hoc : (slotAt t idx).occupied with _ | _
    · rw [if_pos (by simp [hoc])]
    · have hk : (slotAt t idx).key ≠ k := by
        have := hkw 0 (by omega)
        rw [hid0] at this
        exact this hoc
      rw [if_neg (by simp [hoc]), if_neg hk]
      have hreindex : ∀ j, ((idx + 1) % c + j) % c = (idx + (j + 1)) % c := by
        intro j
        rw [Nat.mod_add_mod, Nat.add_assoc, Nat.add_comm 1 j]
      have hidx1 : (idx + 1) % c < c := Nat.mod_lt _ hc
      by_cases hswap : (slotAt t idx).psl < curr.psl
      · rw [if_pos hswap]
        apply ih _ _ _ (by simp [hlen]) (by rw [hmask]; exact hidx1) (by omega)
        · obtain ⟨j, hj, hjo⟩ := hemp
          have hj0 : j ≠ 0 := by
            intro h0
            rw [h0, hid0] at hjo
            rw [hjo] at hoc
            exact Bool.noConfusion hoc
          refine ⟨j - 1, by omega, ?_⟩
          rw [hmask, hreindex]
          have hj1 : j - 1 + 1 = j := by omega
          rw [hj1]
          have hne : (idx + j) % c ≠ idx := add_mod_ne_self hidx (by omega) (by omega)
          rw [slotAt_set_ne t curr (fun h => hne h.symm)]
          exact hjo
        · intro j hj
          rw [hmask, hreindex]
          have hne : (idx + (j + 1)) % c ≠ idx := add_mod_ne_self hidx (by omega) (by omega)
          rw [slotAt_set_ne t curr (fun h => hne h.symm)]
          exact hkw (j + 1) (by omega)
      · rw [if_neg hswap]
        apply ih _ _ _ hlen (by rw [hmask]; exact hidx1) (by omega)
        · obtain ⟨j, hj, hjo⟩ := hemp
          have hj0 : j ≠ 0 := by
            intro h0
            rw [h0, hid0] at hjo
            rw [hjo] at hoc
            exact Bool.noConfusion hoc
          refine ⟨j - 1, by omega, ?_⟩
          rw [hmask, hreindex]
          have hj1 : j - 1 + 1 = j := by omega
          rw [hj1]
          exact hjo
        · intro j hj
          rw [hmask, hreindex]
          exact hkw (j + 1) (by omega)

theorem insertLoop_flag_false {c mask k : Nat} (hmask : ∀ x, x &&& mask = x % c)
    (hc : 0 < c) :
    ∀ fuel t curr idx, t.length = c → idx < c → curr.occupied = true →
      (∀ i, i < c → (slotAt t i).occupied = true) →
      (insertLoop mask k fuel t curr idx).2 = false := by
  intro fuel
  induction fuel with
  | zero => intro t curr idx _ _ _ _; simp [insertLoop]
  | succ fuel ih =>
    intro t curr idx hlen hidx hcurr hall
    have hoc : (slotAt t idx).occupied = true := hall idx hidx
    rw [insertLoop_succ, if_neg (by simp [hoc])]
    by_cases hk : (slotAt t idx).key = k
    · rw [if_pos hk]
    · rw [if_neg hk]
      have hidx1 : (idx + 1) % c < c := Nat.mod_lt _ hc
      by_cases hswap : (slotAt t idx).psl < curr.psl
      · rw [if_pos hswap]
        apply ih _ _ _ (by simp [hlen]) (by rw [hmask]; exact hidx1) (by simp [hoc])
        intro i hi
        by_cases hii : idx = i
        · subst hii
          rw [slotAt_set_self t curr (by omega)]
          exact hcurr
        · rw [slotAt_set_ne t curr hii]
          exact hall i hi
      · rw [if_neg hswap]
        exact ih _ _ _ hlen (by rw [hmask]; exact hidx1) (by simp [hcurr]) hall

theorem pairIn_set_exchange {t : List Bucket} {idx : Nat} {curr : Bucket}
    (hil : idx < t.length) (hoc : (slotAt t idx).occupied = true)
    (hcurr : curr.occupied = true) (q w : Nat) :
    (pairIn (t.set idx curr) q w ∨
        (q = (slotAt t idx).key ∧ w = (slotAt t idx).value)) ↔
      (pairIn t q w ∨ (q = curr.key ∧ w = curr.value)) := by
  constructor
  · intro h
    rcases h with h2 | h2
    · rcases pairIn_of_pairIn_set h2 with h3 | h3
      · exact Or.inl h3
      · exact Or.inr h3
    · exact Or.inl ⟨idx, hil, hoc, h2.1.symm, h2.2.symm⟩
  · intro h
    rcases h with h2 | h2
    · obtain ⟨j, hj, hjo, hjk, hjv⟩ := h2
      by_cases hji : j = idx
      · subst hji
        exact Or.inr ⟨hjk.symm, hjv.symm⟩
      · exact Or.inl ⟨j, by simpa using hj, by
          rw [slotAt_set_ne t curr (fun h4 => hji h4.symm)]; exact hjo, by
          rw [slotAt_set_ne t curr (fun h4 => hji h4.symm)]; exact hjk, by
          rw [slotAt_set_ne t curr (fun h4 => hji h4.symm)]; exact hjv⟩
    · exact Or.inl ⟨idx, by simpa using hil, by
        rw [slotAt_set_self t curr hil]; exact hcurr, by
        rw [slotAt_set_self t curr hil]; exact h2.1.symm, by
        rw [slotAt_set_self t curr hil]; exact h2.2.symm⟩

/-- When the insertion loop returns with the flag false, at most one
key/value pair of the original contents plus the candidate is missing from
the result: some single pair accounts for the whole difference. -/
theorem insertLoop_lost {c mask k : Nat} (hmask : ∀ x, x &&& mask = x % c)
    (hc : 0 < c) :
    ∀ fuel t curr idx, t.length = c → idx < c → curr.occupied = true →
      (insertLoop mask k fuel t curr idx).2 = false →
      ∃ lq lw, ∀ q w,
        (pairIn (insertLoop mask k fuel t curr idx).1 q w ∨ (q = lq ∧ w = lw)) ↔
          (pairIn t q w ∨ (q = curr.key ∧ w = curr.value)) := by
  intro fuel
  induction fuel with
  | zero =>
    intro t curr idx _ _ _ _
    exact ⟨curr.key, curr.value, fun q w => Iff.rfl⟩
  | succ fuel ih =>
    intro t curr idx hlen hidx hcurr hflag
    have hil : idx < t.length := by omega
    rw [insertLoop_succ] at hflag ⊢
    rcases hoc : (slotAt t idx).occupied with _ | _
    · rw [if_pos (by simp [hoc])] at hflag
      exact absurd hflag (by simp)
    · rw [if_neg (by simp [hoc])] at hflag ⊢
      by_cases hk : (slotAt t idx).key = k
      · rw [if_pos hk] at hflag ⊢
        exact ⟨curr.key, curr.value, fun q w => Iff.rfl⟩
      · rw [if_neg hk] at hflag ⊢
        by_cases hswap : (slotAt t idx).psl < curr.psl
        · rw [if_pos hswap] at hflag ⊢
          obtain ⟨lq, lw, hiff⟩ := ih (t.set idx curr)
            { slotAt t idx with psl := wrap16 ((slotAt t idx).psl + 1) }
            ((idx + 1) &&& mask) (by simp [hlen])
            (by rw [hmask]; exact Nat.mod_lt _ hc) (by simp [hoc]) hflag
          refine ⟨lq, lw, fun q w => ?_⟩
          rw [hiff q w]
          exact pairIn_set_exchange hil hoc hcurr q w
        · rw [if_neg hswap] at hflag ⊢
          obtain ⟨lq, lw, hiff⟩ := ih t { curr with psl := wrap16 (curr.psl + 1) }
            ((idx + 1) &&& mask) hlen (by rw [hmask]; exact Nat.mod_lt _ hc)
            (by simp [hcurr]) hflag
          exact ⟨lq, lw, fun q w => hiff q w⟩

theorem insertLoop_pairs_iff {c mask k : Nat} (hmask : ∀ x, x &&& mask = x % c)
    (hc : 0 < c) :
    ∀ fuel t curr idx, t.length = c → idx < c → curr.occupied = true →
      (insertLoop mask k fuel t curr idx).2 = true →
      ∀ q w, pairIn (insertLoop mask k fuel t curr idx).1 q w ↔
        (pairIn t q w ∨ (q = curr.key ∧ w = curr.value)) := by
  intro fuel
  induction fuel with
  | zero => intro t curr idx _ _ _ hflag; simp [insertLoop] at hflag
  | succ fuel ih =>
    intro t curr idx hlen hidx hcurr hflag q w
    have hil : idx < t.length := by omega
    rw [insertLoop_succ] at hflag ⊢
    rcases hoc : (slotAt t idx).occupied with _ | _
    · rw [if_pos (by simp [hoc])] at hflag ⊢
      constructor
      · intro h
        rcases pairIn_of_pairIn_set h with h2 | h2
        · exact Or.inl h2
        · exact Or.inr h2
      · intro h
        rcases h with h2 | h2
        · obtain ⟨j, hj, hjo, hjk, hjv⟩ := h2
          have hji : j ≠ idx := by
            intro h3
            subst h3
            rw [hjo] at hoc
            exact Bool.noConfusion hoc
          exact ⟨j, by simpa using hj, by
            rw [slotAt_set_ne t curr (fun h4 => hji h4.symm)]; exact hjo, by
            rw [slotAt_set_ne t curr (fun h4 => hji h4.symm)]; exact hjk, by
            rw [slotAt_set_ne t curr (fun h4 => hji h4.symm)]; exact hjv⟩
        · exact ⟨idx, by simpa using hil, by
            rw [slotAt_set_self t curr hil]; exact hcurr, by
            rw [slotAt_set_self t curr hil]; exact h2.1.symm, by
            rw [slotAt_set_self t curr hil]; exact h2.2.symm⟩
    · rw [if_neg (by simp [hoc])] at hflag ⊢
      by_cases hk : (slotAt t idx).key = k
      · rw [if_pos hk] at hflag
        exact absurd hflag (by simp)
      · rw [if_neg hk] at hflag ⊢
        by_cases hswap : (slotAt t idx).psl < curr.psl
        · rw [if_pos hswap] at hflag ⊢
          have hrec := ih (t.set idx curr)
            { slotAt t idx with psl := wrap16 ((slotAt t idx).psl + 1) } ((idx + 1) &&& mask)
            (by simp [hlen]) (by rw [hmask]; exact Nat.mod_lt _ hc) (by simp [hoc])
            hflag q w
          rw [hrec]
          simp only
          constructor
          · intro h
            rcases h with h2 | h2
            · rcases pairIn_of_pairIn_set h2 with h3 | h3
              · exact Or.inl h3
              · exact Or.inr h3
            · exact Or.inl ⟨idx, hil, hoc, h2.1.symm, h2.2.symm⟩
          · intro h
            rcases h with h2 | h2
            · obtain ⟨j, hj, hjo, hjk, hjv⟩ := h2
              by_cases hji : j = idx
              · subst hji
                exact Or.inr ⟨hjk.symm, hjv.symm⟩
              · exact Or.inl ⟨j, by simpa using hj, by
                  rw [slotAt_set_ne t curr (fun h4 => hji h4.symm)]; exact hjo, by
                  rw [slotAt_set_ne t curr (fun h4 => hji h4.symm)]; exact hjk, by
                  rw [slotAt_set_ne t curr (fun h4 => hji h4.symm)]; exact hjv⟩
            · exact Or.inl ⟨idx, by simpa using hil, by
                rw [slotAt_set_self t curr hil]; exact hcurr, by
                rw [slotAt_set_self t curr hil]; exact h2.1.symm, by
                rw [slotAt_set_self t curr hil]; exact h2.2.symm⟩
        · rw [if_neg hswap] at hflag ⊢
          have hrec := ih t { curr with psl := wrap16 (curr.psl + 1) } ((idx + 1) &&& mask)
            hlen (by rw [hmask]; exact Nat.mod_lt _ hc) (by simp [hcurr]) hflag q w
          rw [hrec]
/-! ### The master insertion induction

The ghost variable `U` below is the unreduced number of probe steps the
current candidate has walked from its ideal slot.  The source stores only
the `int16_t` narrowing `wrap16 U` in `curr.psl`, and the index only
carries `U` modulo the capacity, so both are tracked together with the
prefix property `hpre` saying every slot the candidate has walked past is
occupied and at least as poor (in the signed order) as the walked
distance.  For capacities dividing `2 ^ 16` the narrowing is periodic with
the table, and for capacities at most `2 ^ 15` no narrowing ever happens
within one `cap_`-probe insert; every power of two is in one of the two
régimes, which is the hypothesis `hsplit`. -/

theorem insertLoop_inv {c mask k : Nat} (hmask : ∀ x, x &&& mask = x % c)
    (hc : 0 < c) (hsplit : 2 ^ 16 ∣ c ∨ c ≤ 2 ^ 15) :
    ∀ (fuel : Nat) (t : List Bucket) (curr : Bucket) (idx U : Nat),
      t.length = c → PslW c t → PathInv c t → DistinctKeys c t →
      idx < c → curr.occupied = true → fuel ≤ c →
      curr.psl = wrap16 (U : Int) →
      idx = (ideal c curr.key + U) % c →
      (∀ p, p < U → (slotAt t ((ideal c curr.key + p) % c)).occupied = true ∧
        wrap16 (p : Int) ≤ (slotAt t ((ideal c curr.key + p) % c)).psl) →
      (c ≤ 2 ^ 15 → U + fuel ≤ c) →
      (∀ i, i < c → (slotAt t i).occupied = true → (slotAt t i).key ≠ curr.key) →
      (∀ j, j < fuel → (slotAt t ((idx + j) % c)).occupied = true →
        (slotAt t ((idx + j) % c)).key ≠ k) →
      (insertLoop mask k fuel t curr idx).1.length = c ∧
        PslW c (insertLoop mask k fuel t curr idx).1 ∧
        PathInv c (insertLoop mask k fuel t curr idx).1 ∧
        DistinctKeys c (insertLoop mask k fuel t curr idx).1 := by
  intro fuel
  induction fuel with
  | zero =>
    intro t curr idx U hlen hpslw hpath hdk _ _ _ _ _ _ _ _ _
    exact ⟨hlen, hpslw, hpath, hdk⟩
  | succ fuel ih =>
    intro t curr idx U hlen hpslw hpath hdk hidx hcurr hfc hU hidxU hpre hsmall
      hfresh hkw
    have hil : idx < t.length := by omega
    have hid0 : (idx + 0) % c = idx := by simpa using Nat.mod_eq_of_lt hidx
    have ha : ideal c curr.key < c := Nat.mod_lt _ hc
    have hUcc : U % c < c := Nat.mod_lt _ hc
    -- the narrowed walked distance is insensitive to reduction mod c, in
    -- both régimes
    have hUc : wrap16 ((U % c : Nat) : Int) = wrap16 (U : Int) := by
      rcases hsplit with hdvd | hsm
      · exact wrap16_mod_of_dvd hdvd U
      · have hUlt : U < c := by
          have := hsmall hsm
          omega
        rw [Nat.mod_eq_of_lt hUlt]
    have hdisp : dispOf c idx (ideal c curr.key) = U % c := by
      rw [hidxU]
      exact dispOf_add_mod hc ha U
    -- slots the candidate has walked past are never the current slot
    have hprene : ∀ p, p < U % c → (ideal c curr.key + p) % c ≠ idx := by
      intro p hp heq
      have h3 : (ideal c curr.key + U % c) % c = (ideal c curr.key + U) % c :=
        Nat.add_mod_mod _ _ _
      have h5 : (ideal c curr.key + p) % c = (ideal c curr.key + U % c) % c :=
        heq.trans (hidxU.trans h3.symm)
      have h6 := add_mod_inj (by omega) hUcc h5
      omega
    rw [insertLoop_succ]
    rcases hoc : (slotAt t idx).occupied with _ | _
    · -- empty slot: the candidate is placed at idx
      rw [if_pos (by simp [hoc])]
      refine ⟨by simp [hlen], ?_, ?_, ?_⟩
      · -- PslW of the written table
        intro i hi hio
        by_cases hii : idx = i
        · subst hii
          rw [slotAt_set_self t curr hil] at hio ⊢
          rw [hdisp, hUc]
          exact hU
        · rw [slotAt_set_ne t curr hii] at hio ⊢
          exact hpslw i hi hio
      · -- PathInv of the written table
        intro i hi hio
        by_cases hii : idx = i
        · subst hii
          rw [slotAt_set_self t curr hil] at hio ⊢
          intro p hp
          rw [hdisp] at hp
          have hpU : p < U := lt_of_lt_of_le hp (Nat.mod_le U c)
          obtain ⟨ho1, ho2⟩ := hpre p hpU
          refine ⟨?_, ?_⟩ <;>
            rw [slotAt_set_ne t curr (fun h4 => hprene p hp h4.symm)]
          · exact ho1
          · exact ho2
        · rw [slotAt_set_ne t curr hii] at hio ⊢
          intro p hp
          have hold := hpath i hi hio p hp
          by_cases hsp : (ideal c (slotAt t i).key + p) % c = idx
          · rw [hsp] at hold
            exact absurd hold.1 (by simp [hoc])
          · refine ⟨?_, ?_⟩ <;> rw [slotAt_set_ne t curr (fun h4 => hsp h4.symm)]
            · exact hold.1
            · exact hold.2
      · -- DistinctKeys of the written table
        intro i j hi hj hio hjo hkeq
        by_cases hii : idx = i <;> by_cases hjj : idx = j
        · omega
        · subst hii
          rw [slotAt_set_self t curr hil] at hkeq
          rw [slotAt_set_ne t curr hjj] at hjo hkeq
          exact absurd hkeq.symm (hfresh j hj hjo)
        · subst hjj
          rw [slotAt_set_self t curr hil] at hkeq
          rw [slotAt_set_ne t curr hii] at hio hkeq
          exact absurd hkeq (hfresh i hi hio)
        · rw [slotAt_set_ne t curr hii] at hio hkeq
          rw [slotAt_set_ne t curr hjj] at hjo hkeq
          exact hdk i j hi hj hio hjo hkeq
    · -- occupied slot
      have hk : (slotAt t idx).key ≠ k := by
        have := hkw 0 (by omega)
        rw [hid0] at this
        exact this hoc
      rw [if_neg (by simp [hoc]), if_neg hk]
      have hidx1 : (idx + 1) % c < c := Nat.mod_lt _ hc
      have hreindex : ∀ j, ((idx + 1) % c + j) % c = (idx + (j + 1)) % c := by
        intro j
        rw [Nat.mod_add_mod, Nat.add_assoc, Nat.add_comm 1 j]
      by_cases hswap : (slotAt t idx).psl < curr.psl
      · -- Robin Hood swap: the candidate is written at idx, the old entry
        -- continues probing with its psl incremented (with narrowing); its
        -- new unreduced walked distance is its exact displacement plus one
        rw [if_pos hswap]
        have hecd : (slotAt t idx).psl =
            wrap16 ((dispOf c idx (ideal c (slotAt t idx).key) : Nat) : Int) :=
          hpslw idx hidx hoc
        have hea : ideal c (slotAt t idx).key < c := Nat.mod_lt _ hc
        have heD : dispOf c idx (ideal c (slotAt t idx).key) < c := dispOf_lt hc _ _
        have hidxe :
            (ideal c (slotAt t idx).key +
              dispOf c idx (ideal c (slotAt t idx).key)) % c = idx :=
          wrap_cancel hidx (by omega)
        apply ih (t.set idx curr) _ ((idx + 1) &&& mask)
          (dispOf c idx (ideal c (slotAt t idx).key) + 1)
        · simp [hlen]
        · -- PslW of the written table
          intro i hi hio
          by_cases hii : idx = i
          · subst hii
            rw [slotAt_set_self t curr hil] at hio ⊢
            rw [hdisp, hUc]
            exact hU
          · rw [slotAt_set_ne t curr hii] at hio ⊢
            exact hpslw i hi hio
        · -- PathInv of the written table: the write strictly increased the
          -- stored psl at idx, so every path through idx is preserved
          intro i hi hio
          by_cases hii : idx = i
          · subst hii
            rw [slotAt_set_self t curr hil] at hio ⊢
            intro p hp
            rw [hdisp] at hp
            have hpU : p < U := lt_of_lt_of_le hp (Nat.mod_le U c)
            obtain ⟨ho1, ho2⟩ := hpre p hpU
            refine ⟨?_, ?_⟩ <;>
              rw [slotAt_set_ne t curr (fun h4 => hprene p hp h4.symm)]
            · exact ho1
            · exact ho2
          · rw [slotAt_set_ne t curr hii] at hio ⊢
            intro p hp
            have hold := hpath i hi hio p hp
            by_cases hsp : (ideal c (slotAt t i).key + p) % c = idx
            · rw [hsp] at hold
              rw [hsp, slotAt_set_self t curr hil]
              exact ⟨hcurr, le_trans hold.2 (le_of_lt hswap)⟩
            · refine ⟨?_, ?_⟩ <;>
                rw [slotAt_set_ne t curr (fun h4 => hsp h4.symm)]
              · exact hold.1
              · exact hold.2
        · -- DistinctKeys of the written table
          intro i j hi hj hio hjo hkeq
          by_cases hii : idx = i <;> by_cases hjj : idx = j
          · omega
          · subst hii
            rw [slotAt_set_self t curr hil] at hkeq
            rw [slotAt_set_ne t curr hjj] at hjo hkeq
            exact absurd hkeq.symm (hfresh j hj hjo)
          · subst hjj
            rw [slotAt_set_self t curr hil] at hkeq
            rw [slotAt_set_ne t curr hii] at hio hkeq
            exact absurd hkeq (hfresh i hi hio)
          · rw [slotAt_set_ne t curr hii] at hio hkeq
            rw [slotAt_set_ne t curr hjj] at hjo hkeq
            exact hdk i j hi hj hio hjo hkeq
        · rw [hmask]
          exact hidx1
        · simp [hoc]
        · omega
        · -- the evicted entry's psl is the narrowing of its walked distance
          show wrap16 ((slotAt t idx).psl + 1) =
            wrap16 ((dispOf c idx (ideal c (slotAt t idx).key) + 1 : Nat) : Int)
          rw [hecd, wrap16_succ, wrap16_cast_succ]
        · -- the next index is the evicted entry's ideal slot plus its
          -- walked distance
          show (idx + 1) &&& mask =
            (ideal c (slotAt t idx).key +
              (dispOf c idx (ideal c (slotAt t idx).key) + 1)) % c
          have hstep2 : (idx + 1) % c =
              (ideal c (slotAt t idx).key +
                (dispOf c idx (ideal c (slotAt t idx).key) + 1)) % c := by
            conv_lhs => rw [← hidxe]
            rw [Nat.mod_add_mod, Nat.add_assoc]
          rw [hmask]
          exact hstep2
        · -- prefix property for the evicted entry: its old path, plus the
          -- slot it just vacated, which now holds the strictly richer curr
          intro p hp
          by_cases hpD : p = dispOf c idx (ideal c (slotAt t idx).key)
          · subst hpD
            rw [hidxe, slotAt_set_self t curr hil]
            refine ⟨hcurr, ?_⟩
            rw [← hecd]
            exact le_of_lt hswap
          · have hpD2 : p < dispOf c idx (ideal c (slotAt t idx).key) := by omega
            have hold := hpath idx hidx hoc p hpD2
            have hne2 : (ideal c (slotAt t idx).key + p) % c ≠ idx := by
              intro heq
              have h5 := heq.trans hidxe.symm
              exact hpD (add_mod_inj (by omega) heD h5)
            refine ⟨?_, ?_⟩ <;> rw [slotAt_set_ne t curr (fun h4 => hne2 h4.symm)]
            · exact hold.1
            · exact hold.2
        · -- in the small régime no narrowing has happened, so the signed
          -- comparison that fired the swap is the comparison of the exact
          -- distances, bounding the evicted entry's distance by U
          intro hsm
          have hUb := hsmall hsm
          have hDeI : wrap16 ((dispOf c idx (ideal c (slotAt t idx).key) : Nat) : Int)
              = ((dispOf c idx (ideal c (slotAt t idx).key) : Nat) : Int) :=
            wrap16_natCast (by omega)
          have hUI : wrap16 ((U : Nat) : Int) = ((U : Nat) : Int) :=
            wrap16_natCast (by omega)
          have hlt2 : ((dispOf c idx (ideal c (slotAt t idx).key) : Nat) : Int) <
              ((U : Nat) : Int) := by
            rw [← hDeI, ← hUI, ← hecd, ← hU]
            exact hswap
          have hlt3 : dispOf c idx (ideal c (slotAt t idx).key) < U := by
            exact_mod_cast hlt2
          omega
        · -- freshness of the evicted key
          intro i hi hio
          simp only
          by_cases hii : idx = i
          · subst hii
            rw [slotAt_set_self t curr hil] at hio ⊢
            intro h
            exact hfresh idx hidx hoc h.symm
          · rw [slotAt_set_ne t curr hii] at hio ⊢
            intro h
            exact hii (hdk idx i hidx hi hoc hio h.symm)
        · -- the original key k does not occur in the remaining window
          intro j hj
          rw [hmask, hreindex]
          have hne : (idx + (j + 1)) % c ≠ idx :=
            add_mod_ne_self hidx (by omega) (by omega)
          rw [slotAt_set_ne t curr (fun h => hne h.symm)]
          exact hkw (j + 1) (by omega)
      · -- no swap: the candidate moves on with its psl incremented (with
        -- narrowing) and its unreduced walked distance up by one
        rw [if_neg hswap]
        apply ih t _ ((idx + 1) &&& mask) (U + 1) hlen hpslw hpath hdk
        · rw [hmask]
          exact hidx1
        · simp [hcurr]
        · omega
        · show wrap16 (curr.psl + 1) = wrap16 ((U + 1 : Nat) : Int)
          rw [hU, wrap16_succ, wrap16_cast_succ]
        · show (idx + 1) &&& mask = (ideal c curr.key + (U + 1)) % c
          rw [hmask, hidxU, Nat.mod_add_mod, Nat.add_assoc]
        · -- the slot just passed joins the walked prefix: un-swapped means
          -- it is at least as poor as the candidate
          intro p hp
          by_cases hpU : p = U
          · subst hpU
            rw [← hidxU]
            refine ⟨hoc, ?_⟩
            rw [← hU]
            exact not_lt.mp hswap
          · exact hpre p (by omega)
        · intro hsm
          have := hsmall hsm
          omega
        · intro i hi hio
          exact hfresh i hi hio
        · intro j hj
          rw [hmask, hreindex]
          exact hkw (j + 1) (by omega)

/-- Inserting a key that is already stored returns the table unchanged with
the flag false: by `PathInv` every slot strictly before the stored
duplicate is at least as poor (in the signed `int16_t` order) as the
candidate's current wrapped distance, so no swap can fire, and the loop
exits at the duplicate check. -/
theorem insertLoop_dup {c mask k : Nat} {t : List Bucket}
    (hmask : ∀ x, x &&& mask = x % c) (hc : 0 < c) (hlen : t.length = c)
    (hpath : PathInv c t) (hdk : DistinctKeys c t)
    {a D : Nat} (ha : a = ideal c k) (hD : D < c)
    (hocc : (slotAt t ((a + D) % c)).occupied = true)
    (hkey : (slotAt t ((a + D) % c)).key = k) :
    ∀ fuel o curr, o ≤ D → curr.psl = wrap16 (o : Int) → D - o < fuel →
      insertLoop mask k fuel t curr ((a + o) % c) = (t, false) := by
  have hac : a < c := by rw [ha]; exact Nat.mod_lt _ hc
  have hiD : (a + D) % c < c := Nat.mod_lt _ hc
  have hDeq : dispOf c ((a + D) % c) a = D := by
    have h2 := dispOf_add_mod hc hac D
    rwa [Nat.mod_eq_of_lt hD] at h2
  have hchain := hpath ((a + D) % c) hiD hocc
  rw [hkey, ← ha, hDeq] at hchain
  intro fuel
  induction fuel with
  | zero => intro o curr _ _ hfo; omega
  | succ fuel ih =>
    intro o curr ho hcp hfo
    by_cases heq : o = D
    · subst heq
      rw [insertLoop_succ, if_neg (by simp [hocc]), if_pos hkey]
    · have hoD : o < D := by omega
      obtain ⟨ho1, ho2⟩ := hchain o hoD
      have hkne : (slotAt t ((a + o) % c)).key ≠ k := by
        intro hkk
        have hio : (a + o) % c < c := Nat.mod_lt _ hc
        have h2 := hdk _ _ hio hiD ho1 hocc (hkk.trans hkey.symm)
        exact heq (add_mod_inj (by omega) hD h2)
      have hnswap : ¬((slotAt t ((a + o) % c)).psl < curr.psl) := by
        rw [hcp]
        exact not_lt.mpr ho2
      rw [insertLoop_succ, if_neg (by simp [ho1]), if_neg hkne, if_neg hnswap]
      have hstep : ((a + o) % c + 1) &&& mask = (a + (o + 1)) % c := by
        rw [hmask, Nat.mod_add_mod, Nat.add_assoc]
      rw [hstep]
      exact ih (o + 1) _ (by omega)
        (by
          show wrap16 (curr.psl + 1) = wrap16 ((o + 1 : Nat) : Int)
          rw [hcp, wrap16_succ, wrap16_cast_succ])
        (by omega)

/-! ### Lookup of a stored key -/

/-- If a key is stored at displacement `D` from its ideal slot and the
table satisfies the wrapped invariants, the find loop started anywhere on
the probe path with matching wrapped distance reaches it and returns its
value: `PathInv` keeps the early-termination test `d > psl` from firing
before the key, and at the key the stored psl equals the arriving wrapped
distance exactly. -/
theorem findLoop_hit {c mask : Nat} {t : List Bucket} (hlen : t.length = c)
    (hmask : ∀ x, x &&& mask = x % c) (hc : 0 < c)
    (hpslw : PslW c t) (hpath : PathInv c t) (hdk : DistinctKeys c t)
    {k v a D : Nat} (ha : a = ideal c k) (hD : D < c)
    (hocc : (slotAt t ((a + D) % c)).occupied = true)
    (hkey : (slotAt t ((a + D) % c)).key = k)
    (hval : (slotAt t ((a + D) % c)).value = v) :
    ∀ fuel o, o ≤ D → D - o < fuel →
      findLoop mask t k fuel ((a + o) % c) (wrap16 (o : Int)) = some (some v) := by
  have hac : a < c := by rw [ha]; exact Nat.mod_lt _ hc
  have hiD : (a + D) % c < c := Nat.mod_lt _ hc
  have hDeq : dispOf c ((a + D) % c) a = D := by
    have h2 := dispOf_add_mod hc hac D
    rwa [Nat.mod_eq_of_lt hD] at h2
  have hchain := hpath ((a + D) % c) hiD hocc
  rw [hkey, ← ha, hDeq] at hchain
  have hpsl : (slotAt t ((a + D) % c)).psl = wrap16 ((D : Nat) : Int) := by
    have h2 := hpslw ((a + D) % c) hiD hocc
    rwa [hkey, ← ha, hDeq] at h2
  intro fuel
  induction fuel with
  | zero => intro o _ hfo; omega
  | succ fuel ih =>
    intro o ho hfo
    by_cases heq : o = D
    · subst heq
      simp only [findLoop]
      rw [if_neg (by simp [hocc]), if_neg (by rw [hpsl]; exact lt_irrefl _),
        if_pos hkey, hval]
    · have hoD : o < D := by omega
      obtain ⟨ho1, ho2⟩ := hchain o hoD
      have hkne : (slotAt t ((a + o) % c)).key ≠ k := by
        intro hkk
        have hio : (a + o) % c < c := Nat.mod_lt _ hc
        have h2 := hdk _ _ hio hiD ho1 hocc (hkk.trans hkey.symm)
        exact heq (add_mod_inj (by omega) hD h2)
      simp only [findLoop]
      rw [if_neg (by simp [ho1]), if_neg (not_lt.mpr ho2),
        if_neg (by simpa using hkne)]
      have hstep : ((a + o) % c + 1) &&& mask = (a + (o + 1)) % c := by
        rw [hmask, Nat.mod_add_mod, Nat.add_assoc]
      have hdstep : wrap16 (wrap16 ((o : Nat) : Int) + 1) =
          wrap16 ((o + 1 : Nat) : Int) :=
        (wrap16_succ _).trans (wrap16_cast_succ o)
      rw [hstep, hdstep]
      exact ih (o + 1) (by omega) (by omega)
/-! ### Table-level lemmas -/

theorem Good.cpos {s : BenchRHH} (hg : Good s) : 0 < s.cap_ := by
  obtain ⟨e, _, hce⟩ := hg.pow
  rw [hce]
  exact Nat.pos_pow_of_pos e (by omega)

theorem Good.hmask {s : BenchRHH} (hg : Good s) : ∀ x, x &&& s.mask_ = x % s.cap_ := by
  obtain ⟨e, _, hce⟩ := hg.pow
  intro x
  rw [hg.mask, hce]
  exact land_mask e x

theorem slotAt_replicate (c i : Nat) : slotAt (List.replicate c zeroBucket) i = zeroBucket := by
  simp only [slotAt, List.getD_eq_getElem?_getD, List.getElem?_replicate]
  by_cases h : i < c <;> simp [h]

theorem not_pairIn_new (c q w : Nat) : ¬ pairIn (BenchRHH.new c).table_ q w := by
  rintro ⟨i, _, hocc, _, _⟩
  rw [BenchRHH.new] at hocc
  simp only at hocc
  rw [slotAt_replicate] at hocc
  simp [zeroBucket] at hocc

theorem good_new {c : Nat} (e : Nat) (he : e < 64) (hce : c = 2 ^ e) :
    Good (BenchRHH.new c) := by
  have hc1 : 1 ≤ c := by
    rw [hce]; exact Nat.pos_pow_of_pos e (by omega)
  have hc63 : c ≤ 2 ^ 63 := by
    rw [hce]
    exact Nat.pow_le_pow_right (by omega) (by omega)
  refine ⟨⟨e, he, hce⟩, ?_, by simp [BenchRHH.new], ?_, ?_, ?_, ?_⟩
  · show (c + (2 ^ 64 - 1)) % 2 ^ 64 = c - 1
    have h64 : (2 : Nat) ^ 63 < 2 ^ 64 := by norm_num
    omega
  · intro i _ hio
    rw [show (BenchRHH.new c).table_ = List.replicate c zeroBucket from rfl,
      slotAt_replicate] at hio
    simp [zeroBucket] at hio
  · intro i _ hio
    rw [show (BenchRHH.new c).table_ = List.replicate c zeroBucket from rfl,
      slotAt_replicate] at hio
    simp [zeroBucket] at hio
  · intro i j _ _ hio
    rw [show (BenchRHH.new c).table_ = List.replicate c zeroBucket from rfl,
      slotAt_replicate] at hio
    simp [zeroBucket] at hio
  · show 0 = countOccupied (List.replicate c zeroBucket)
    symm
    rw [countOccupied, List.countP_eq_zero]
    intro b hb
    rw [List.eq_of_mem_replicate hb]
    simp [zeroBucket]

/-- Inserting a key that is already stored anywhere in a well-formed table
is a complete no-op: the whole state, table and size counter included, is
returned unchanged. -/
theorem insert_dup_noop {s : BenchRHH} (hg : Good s) {k : Nat}
    (hk : keyIn s.table_ k) (v : Nat) : s.insert k v = s := by
  obtain ⟨i, hil, hocc, hkey⟩ := hk
  have hc := hg.cpos
  have hic : i < s.cap_ := by rw [← hg.len]; exact hil
  have ha : ideal s.cap_ k < s.cap_ := Nat.mod_lt _ hc
  have hDc : dispOf s.cap_ i (ideal s.cap_ k) < s.cap_ := dispOf_lt hc _ _
  have hiw : (ideal s.cap_ k + dispOf s.cap_ i (ideal s.cap_ k)) % s.cap_ = i :=
    wrap_cancel hic (by omega)
  have hdup := insertLoop_dup hg.hmask hc hg.len hg.path hg.dk rfl hDc
    (by rw [hiw]; exact hocc) (by rw [hiw]; exact hkey)
    s.cap_ 0 ⟨k, v, 0, true⟩ (by omega)
    (by
      show (0 : Int) = wrap16 ((0 : Nat) : Int)
      decide)
    (by omega)
  have hidx : hash k &&& s.mask_ = (ideal s.cap_ k + 0) % s.cap_ := by
    rw [hg.hmask, Nat.add_zero, Nat.mod_eq_of_lt ha]
    rfl
  rw [BenchRHH.insert, hidx, hdup]
  simp

theorem insert_cap (s : BenchRHH) (k v : Nat) : (s.insert k v).cap_ = s.cap_ := rfl

theorem insert_mask (s : BenchRHH) (k v : Nat) : (s.insert k v).mask_ = s.mask_ := rfl

theorem not_keyIn_fresh {t : List Bucket} {c k : Nat} (hlen : t.length = c)
    (hk : ¬ keyIn t k) :
    ∀ i, i < c → (slotAt t i).occupied = true → (slotAt t i).key ≠ k := by
  intro i hi hio hkey
  exact hk ⟨i, by omega, hio, hkey⟩

/-- Every power-of-two capacity is in one of the two narrowing régimes:
either `2 ^ 16` divides it, or it is at most `2 ^ 15`. -/
theorem Good.split {s : BenchRHH} (hg : Good s) :
    2 ^ 16 ∣ s.cap_ ∨ s.cap_ ≤ 2 ^ 15 := by
  obtain ⟨e, _, hce⟩ := hg.pow
  by_cases h16 : e ≤ 15
  · right
    rw [hce]
    exact Nat.pow_le_pow_right (by omega) h16
  · left
    rw [hce]
    exact pow_dvd_pow 2 (by omega)

theorem good_insert {s : BenchRHH} (hg : Good s) (k v : Nat) : Good (s.insert k v) := by
  have hc := hg.cpos
  by_cases hk : keyIn s.table_ k
  · rw [insert_dup_noop hg hk v]
    exact hg
  · have hfresh := not_keyIn_fresh hg.len hk
    have hidx : hash k &&& s.mask_ = ideal s.cap_ k := hg.hmask _
    have ha : ideal s.cap_ k < s.cap_ := Nat.mod_lt _ hc
    have hinv := insertLoop_inv hg.hmask hc hg.split s.cap_ s.table_
      ⟨k, v, 0, true⟩ (ideal s.cap_ k) 0 hg.len hg.pslw hg.path hg.dk ha rfl
      (le_refl _)
      (by
        show (0 : Int) = wrap16 ((0 : Nat) : Int)
        decide)
      (by
        show ideal s.cap_ k = (ideal s.cap_ k + 0) % s.cap_
        rw [Nat.add_zero]
        exact (Nat.mod_eq_of_lt ha).symm)
      (fun p hp => absurd hp (Nat.not_lt_zero p))
      (fun _ => by omega)
      hfresh
      (fun j _ => hfresh _ (Nat.mod_lt _ hc))
    have hcount := insertLoop_count (k := k) hg.hmask hc s.cap_ s.table_
      ⟨k, v, 0, true⟩ (ideal s.cap_ k) hg.len ha rfl
    refine ⟨hg.pow, hg.mask, ?_, ?_, ?_, ?_, ?_⟩ <;>
      rw [BenchRHH.insert, hidx]
    · exact hinv.1
    · exact hinv.2.1
    · exact hinv.2.2.1
    · exact hinv.2.2.2
    · show (if (insertLoop s.mask_ k s.cap_ s.table_ ⟨k, v, 0, true⟩ (ideal s.cap_ k)).2
          then s.size_ + 1 else s.size_) = _
      rw [hcount, hg.size]
      by_cases hflag : (insertLoop s.mask_ k s.cap_ s.table_ ⟨k, v, 0, true⟩
          (ideal s.cap_ k)).2 <;> simp [hflag]

theorem insert_fresh {s : BenchRHH} (hg : Good s) {k : Nat}
    (hk : ¬ keyIn s.table_ k) (v : Nat)
    (hroom : countOccupied s.table_ < s.cap_) :
    (s.insert k v).size_ = s.size_ + 1 ∧
      ∀ q w, pairIn (s.insert k v).table_ q w ↔
        (pairIn s.table_ q w ∨ (q = k ∧ w = v)) := by
  have hc := hg.cpos
  have hfresh := not_keyIn_fresh hg.len hk
  have hidx : hash k &&& s.mask_ = ideal s.cap_ k := hg.hmask _
  have ha : ideal s.cap_ k < s.cap_ := Nat.mod_lt _ hc
  obtain ⟨i0, hi0, hi0o⟩ := exists_unoccupied s.table_ (by rw [hg.len]; exact hroom)
  have hi0c : i0 < s.cap_ := by rw [← hg.len]; exact hi0
  have hwin : ∃ j, j < s.cap_ ∧
      (slotAt s.table_ ((ideal s.cap_ k + j) % s.cap_)).occupied = false := by
    refine ⟨dispOf s.cap_ i0 (ideal s.cap_ k), dispOf_lt hc _ _, ?_⟩
    unfold dispOf
    rw [wrap_cancel hi0c (Nat.le_of_lt ha)]
    exact hi0o
  have hflag := insertLoop_flag_true (k := k) hg.hmask hc s.cap_ s.table_
    ⟨k, v, 0, true⟩ (ideal s.cap_ k) hg.len ha (le_refl _) hwin
    (fun j _ => hfresh _ (Nat.mod_lt _ hc))
  have hpairs := insertLoop_pairs_iff (k := k) hg.hmask hc s.cap_ s.table_
    ⟨k, v, 0, true⟩ (ideal s.cap_ k) hg.len ha rfl hflag
  constructor
  · show (if (insertLoop s.mask_ k s.cap_ s.table_ ⟨k, v, 0, true⟩
        (hash k &&& s.mask_)).2 then s.size_ + 1 else s.size_) = s.size_ + 1
    rw [hidx, hflag]
    simp
  · intro q w
    show pairIn (insertLoop s.mask_ k s.cap_ s.table_ ⟨k, v, 0, true⟩
        (hash k &&& s.mask_)).1 q w ↔ _
    rw [hidx]
    exact hpairs q w

theorem insert_full_size {s : BenchRHH} (hg : Good s) (hfull : s.size_ = s.cap_)
    (k v : Nat) : (s.insert k v).size_ = s.size_ := by
  have hc := hg.cpos
  have hcnt : countOccupied s.table_ = s.table_.length := by
    rw [hg.len, ← hg.size, hfull]
  have hall := all_occupied_of_count s.table_ hcnt
  have hall2 : ∀ i, i < s.cap_ → (slotAt s.table_ i).occupied = true := by
    intro i hi
    exact hall i (by rw [hg.len]; exact hi)
  have hidxlt : hash k &&& s.mask_ < s.cap_ := by
    rw [hg.hmask]
    exact Nat.mod_lt _ hc
  have hflag := insertLoop_flag_false (k := k) hg.hmask hc s.cap_ s.table_
    ⟨k, v, 0, true⟩ (hash k &&& s.mask_) hg.len hidxlt rfl hall2
  show (if (insertLoop s.mask_ k s.cap_ s.table_ ⟨k, v, 0, true⟩
      (hash k &&& s.mask_)).2 then s.size_ + 1 else s.size_) = s.size_
  rw [hflag]
  simp

theorem find_hit {s : BenchRHH} (hg : Good s) {k v : Nat}
    (h : pairIn s.table_ k v) : s.find k (s.cap_ + 1) = some (some v) := by
  obtain ⟨i, hil, hocc, hkey, hval⟩ := h
  have hc := hg.cpos
  have hic : i < s.cap_ := by rw [← hg.len]; exact hil
  have ha : ideal s.cap_ k < s.cap_ := Nat.mod_lt _ hc
  have hDc : dispOf s.cap_ i (ideal s.cap_ k) < s.cap_ := dispOf_lt hc _ _
  have hiw : (ideal s.cap_ k + dispOf s.cap_ i (ideal s.cap_ k)) % s.cap_ = i :=
    wrap_cancel hic (by omega)
  have hmain := findLoop_hit (k := k) (v := v) (a := ideal s.cap_ k)
    (D := dispOf s.cap_ i (ideal s.cap_ k)) hg.len hg.hmask hc hg.pslw hg.path
    hg.dk rfl hDc (by rw [hiw]; exact hocc) (by rw [hiw]; exact hkey)
    (by rw [hiw]; exact hval) (s.cap_ + 1) 0 (by omega) (by omega)
  rw [BenchRHH.find, hg.hmask]
  have h0 : hash k % s.cap_ = (ideal s.cap_ k + 0) % s.cap_ := by
    rw [Nat.add_zero, Nat.mod_eq_of_lt ha]
    rfl
  have hd0 : (0 : Int) = wrap16 ((0 : Nat) : Int) := by decide
  rw [h0, hd0]
  exact hmain

/-! ### Lemmas about sequences of insertions -/

theorem good_foldl : ∀ (ops : List (Nat × Nat)) (s : BenchRHH), Good s →
    Good (ops.foldl (fun s p => s.insert p.1 p.2) s) := by
  intro ops
  induction ops with
  | nil => intro s hg; exact hg
  | cons p ops ih => intro s hg; exact ih _ (good_insert hg p.1 p.2)

theorem good_build {c : Nat} (e : Nat) (he : e < 64) (hce : c = 2 ^ e)
    (ops : List (Nat × Nat)) : Good (buildTable c ops) :=
  good_foldl ops _ (good_new e he hce)

theorem foldl_cap : ∀ (ops : List (Nat × Nat)) (s : BenchRHH),
    (ops.foldl (fun s p => s.insert p.1 p.2) s).cap_ = s.cap_ := by
  intro ops
  induction ops with
  | nil => intro s; rfl
  | cons p ops ih => intro s; exact ih (s.insert p.1 p.2)

theorem buildTable_cap (c : Nat) (ops : List (Nat × Nat)) :
    (buildTable c ops).cap_ = c :=
  foldl_cap ops (BenchRHH.new c)

theorem foldl_pairs_sub : ∀ (ops : List (Nat × Nat)) (s : BenchRHH) (q w : Nat),
    pairIn (ops.foldl (fun s p => s.insert p.1 p.2) s).table_ q w →
    pairIn s.table_ q w ∨ q ∈ ops.map Prod.fst := by
  intro ops
  induction ops with
  | nil => intro s q w h; exact Or.inl h
  | cons p ops ih =>
    intro s q w h
    rcases ih (s.insert p.1 p.2) q w h with h2 | h2
    · rcases insertLoop_pairs_subset s.mask_ p.1 s.cap_ s.table_ ⟨p.1, p.2, 0, true⟩
        (hash p.1 &&& s.mask_) q w h2 with h3 | h3
      · exact Or.inl h3
      · exact Or.inr (by simp [h3.1])
    · exact Or.inr (by simp [h2])

theorem build_keys_sub {c : Nat} (ops : List (Nat × Nat)) {q w : Nat}
    (h : pairIn (buildTable c ops).table_ q w) : q ∈ ops.map Prod.fst := by
  rcases foldl_pairs_sub ops (BenchRHH.new c) q w h with h2 | h2
  · exact absurd h2 (not_pairIn_new c q w)
  · exact h2

theorem foldl_exact :
    ∀ (ps done : List (Nat × Nat)) (s : BenchRHH), Good s →
      s.size_ = done.length →
      (∀ q w, pairIn s.table_ q w ↔ (q, w) ∈ done) →
      ((done ++ ps).map Prod.fst).Nodup →
      done.length + ps.length ≤ s.cap_ →
      Good (ps.foldl (fun s p => s.insert p.1 p.2) s) ∧
        (ps.foldl (fun s p => s.insert p.1 p.2) s).size_ =
          done.length + ps.length ∧
        ∀ q w, pairIn (ps.foldl (fun s p => s.insert p.1 p.2) s).table_ q w ↔
          (q, w) ∈ done ++ ps := by
  intro ps
  induction ps with
  | nil =>
    intro done s hg hsize hpairs _ _
    refine ⟨hg, by simpa using hsize, ?_⟩
    intro q w
    rw [List.append_nil]
    exact hpairs q w
  | cons p ps ih =>
    intro done s hg hsize hpairs hnodup hcount
    have hknotin : ¬ keyIn s.table_ p.1 := by
      rintro ⟨i, hil, hio, hik⟩
      have hp : pairIn s.table_ p.1 (slotAt s.table_ i).value :=
        ⟨i, hil, hio, hik, rfl⟩
      have hmem := (hpairs _ _).mp hp
      have hfst : p.1 ∈ done.map Prod.fst :=
        List.mem_map.mpr ⟨_, hmem, rfl⟩
      rw [List.map_append, List.nodup_append] at hnodup
      exact hnodup.2.2 hfst (by simp)
    have hroom : countOccupied s.table_ < s.cap_ := by
      rw [← hg.size, hsize]
      simp at hcount
      omega
    have hins := insert_fresh hg hknotin p.2 hroom
    have hstep := ih (done ++ [p]) (s.insert p.1 p.2) (good_insert hg p.1 p.2)
      (by rw [hins.1, hsize]; simp)
      (by
        intro q w
        rw [hins.2 q w, hpairs q w]
        simp [Prod.ext_iff])
      (by
        rw [List.append_assoc]
        exact hnodup)
      (by
        rw [insert_cap]
        simp at hcount ⊢
        omega)
    refine ⟨hstep.1, ?_, ?_⟩
    · show (List.foldl (fun s p => s.insert p.1 p.2) (s.insert p.1 p.2) ps).size_ =
        done.length + (p :: ps).length
      rw [hstep.2.1]
      simp only [List.length_append, List.length_cons, List.length_nil]
      omega
    · intro q w
      show pairIn
        (List.foldl (fun s p => s.insert p.1 p.2) (s.insert p.1 p.2) ps).table_ q w ↔
        (q, w) ∈ done ++ p :: ps
      rw [hstep.2.2 q w]
      simp [List.mem_append, or_assoc]

theorem insert_pairs_sub (s : BenchRHH) (k v q w : Nat)
    (h : pairIn (s.insert k v).table_ q w) :
    pairIn s.table_ q w ∨ (q = k ∧ w = v) :=
  insertLoop_pairs_subset s.mask_ k s.cap_ s.table_ ⟨k, v, 0, true⟩
    (hash k &&& s.mask_) q w h

theorem insert_size_count {s : BenchRHH} (hg : Good s) (k v : Nat) :
    (s.insert k v).size_ = s.size_ +
      (countOccupied (s.insert k v).table_ - countOccupied s.table_) := by
  have hc := hg.cpos
  have ha : ideal s.cap_ k < s.cap_ := Nat.mod_lt _ hc
  have hidx : hash k &&& s.mask_ = ideal s.cap_ k := hg.hmask _
  have hcount := insertLoop_count (k := k) hg.hmask hc s.cap_ s.table_
    ⟨k, v, 0, true⟩ (ideal s.cap_ k) hg.len ha rfl
  rw [BenchRHH.insert, hidx]
  show (if (insertLoop s.mask_ k s.cap_ s.table_ ⟨k, v, 0, true⟩
      (ideal s.cap_ k)).2 then s.size_ + 1 else s.size_) = _
  rw [hcount]
  by_cases hflag : (insertLoop s.mask_ k s.cap_ s.table_ ⟨k, v, 0, true⟩
      (ideal s.cap_ k)).2 <;> simp [hflag]
/-! ### The saturated capacity-32768 table and non-termination of find

`satTable` is the slot-array shape produced by saturating a capacity
`2 ^ 15` table with `2 ^ 15` distinct keys whose ideal slot is 0, inserted
in order: slot `j` holds an entry with `psl = j` (no `int16_t` narrowing
occurs during that build, every displacement being at most `2 ^ 15 - 1 =
32767`).  Such keys exist in abundance: the hash mixer is a bijection on
64-bit values, so every ideal slot has `2 ^ 49` preimages — concretely the
preimages of the multiples of `2 ^ 15`.  The key and value fields stored
here are placeholders for the probe analysis: on a lookup of an absent key
the loop only ever reads occupancy, the stored `psl`, and the failed key
comparison, and the key probed below (`2 ^ 15`) differs from every stored
key (`j < 2 ^ 15`) just as the absent 64-bit key differs from the stored
ones. -/

theorem wrap16_natCast_high {q : Nat} (h1 : 2 ^ 15 ≤ q) (h2 : q < 2 ^ 16) :
    wrap16 (q : Int) = (q : Int) - 2 ^ 16 := by
  unfold wrap16
  have hc2 : ((q : Nat) : Int) < 2 ^ 16 := by exact_mod_cast h2
  have hc1 : (2 ^ 15 : Int) ≤ ((q : Nat) : Int) := by exact_mod_cast h1
  have h3 : ((q : Nat) : Int) + 2 ^ 15 = ((q : Nat) : Int) - 2 ^ 15 + 2 ^ 16 := by
    ring
  rw [h3, Int.add_emod_self, Int.emod_eq_of_lt (by omega) (by omega)]
  ring

theorem slotAt_satTable {j : Nat} (hj : j < 2 ^ 15) :
    slotAt satTable j = ⟨j, j, (j : Int), true⟩ := by
  simp only [slotAt, satTable, List.getD_eq_getElem?_getD, List.getElem?_map,
    List.getElem?_range hj]
  rfl

/-- On the saturated table the early-termination test can never fire: at
probe `p` the loop sits at slot `p % 2 ^ 15`, whose stored `psl` is that
very index, while the wrapped distance `d = wrap16 p` is either equal to it
(first lap) or negative (every probe from `2 ^ 15` on, after `d` wrapped to
`-2 ^ 15`), so `d > psl` never holds. -/
theorem sat_no_exit (p : Nat) :
    ¬(((p % 2 ^ 15 : Nat) : Int) < wrap16 ((p : Nat) : Int)) := by
  intro hlt
  have hq : p % 2 ^ 16 < 2 ^ 16 := Nat.mod_lt _ (by norm_num)
  have hw : wrap16 ((p : Nat) : Int) = wrap16 ((p % 2 ^ 16 : Nat) : Int) :=
    (wrap16_mod_of_dvd (dvd_refl (2 ^ 16)) p).symm
  have hmm2 : p % 2 ^ 15 = p % 2 ^ 16 % 2 ^ 15 :=
    (Nat.mod_mod_of_dvd p (by norm_num : (2 : Nat) ^ 15 ∣ 2 ^ 16)).symm
  rw [hw, hmm2] at hlt
  by_cases hq15 : p % 2 ^ 16 < 2 ^ 15
  · rw [Nat.mod_eq_of_lt hq15, wrap16_natCast hq15] at hlt
    exact lt_irrefl _ hlt
  · have hle : 2 ^ 15 ≤ p % 2 ^ 16 := Nat.le_of_not_lt hq15
    rw [wrap16_natCast_high hle hq] at hlt
    have hb1 : (0 : Int) ≤ ((p % 2 ^ 16 % 2 ^ 15 : Nat) : Int) :=
      Int.natCast_nonneg _
    have hb2 : ((p % 2 ^ 16 : Nat) : Int) < 2 ^ 16 := by exact_mod_cast hq
    omega

/-- The find loop on the saturated table, probing the absent key, is still
running after any number of probes: at probe `p` it sits at slot
`p % 2 ^ 15` with wrapped distance `wrap16 p`, the slot is occupied by a
non-matching key, and by `sat_no_exit` the early exit never fires. -/
theorem sat_find_none :
    ∀ fuel p, findLoop (2 ^ 15 - 1) satTable (2 ^ 15) fuel (p % 2 ^ 15)
      (wrap16 ((p : Nat) : Int)) = none := by
  intro fuel
  induction fuel with
  | zero => intro p; rfl
  | succ fuel ih =>
    intro p
    have hj : p % 2 ^ 15 < 2 ^ 15 := Nat.mod_lt _ (by norm_num)
    have hslot := slotAt_satTable hj
    simp only [findLoop]
    rw [if_neg (by rw [hslot]; simp),
      if_neg (by
        rw [hslot]
        show ¬(((p % 2 ^ 15 : Nat) : Int) < wrap16 ((p : Nat) : Int))
        exact sat_no_exit p),
      if_neg (by
        rw [hslot]
        show ¬(p % 2 ^ 15 = 2 ^ 15)
        omega)]
    have hstep : (p % 2 ^ 15 + 1) &&& (2 ^ 15 - 1) = (p + 1) % 2 ^ 15 := by
      rw [land_mask, Nat.mod_add_mod]
    have hdstep : wrap16 (wrap16 ((p : Nat) : Int) + 1) =
        wrap16 ((p + 1 : Nat) : Int) :=
      (wrap16_succ _).trans (wrap16_cast_succ p)
    rw [hstep, hdstep]
    exact ih (p + 1)

/-! ### Claim theorems -/

/-- Claim C1: round-trip.  For every sequence of distinct keys inserted into
a table constructed with power-of-two capacity, while the number of
insertions is strictly less than the capacity, a subsequent `find` on each
inserted key returns found = true (`some (some v)`) with the exact value
supplied at that insertion.  The fuel `2 ^ e + 1` bounds the probes of the
unbounded source loop; it suffices here because the stored key is reached
after exactly its displacement many probes, which is less than the
capacity. -/
theorem C1_roundtrip (e : Nat) (he : e < 64) (ps : List (Nat × Nat))
    (hnd : (ps.map Prod.fst).Nodup) (hlt : ps.length < 2 ^ e) :
    ∀ p ∈ ps, (buildTable (2 ^ e) ps).find p.1 (2 ^ e + 1) = some (some p.2) := by
  have hmain := foldl_exact ps [] (BenchRHH.new (2 ^ e)) (good_new e he rfl) rfl
    (fun q w => iff_of_false (not_pairIn_new _ q w) (by simp))
    (by simpa using hnd) (by simpa using Nat.le_of_lt hlt)
  intro p hp
  have hpair : pairIn
      (ps.foldl (fun s p => s.insert p.1 p.2) (BenchRHH.new (2 ^ e))).table_ p.1 p.2 :=
    (hmain.2.2 p.1 p.2).mpr (by simpa using hp)
  have h2 := find_hit hmain.1 hpair
  rw [foldl_cap] at h2
  exact h2

theorem C1_witness : (buildTable 4 [(1, 10), (2, 20)]).find 1 5 = some (some 10) :=
  C1_roundtrip 2 (by decide) [(1, 10), (2, 20)] (by decide) (by decide) (1, 10)
    (by decide)

/-- Claim C3 (supporting theorem for the code bug): negative lookup is NOT
sound on every reachable state.  On the saturated capacity-`2 ^ 15` table
shape `satTable` — reachable by inserting `2 ^ 15` distinct keys with ideal
slot 0 — a `find` of an absent key with ideal slot 0 never returns at all:
for every probe budget the embedded loop is still running (`none`), because
after `2 ^ 15 - 1` probes the `int16_t` distance `d` wraps to `-2 ^ 15` and
the early-termination exit `d > psl` can never fire, while the source loop
is `while (true)` with no other exit.  The claim says `find` returns
found = false for a key never inserted, for any table state. -/
theorem C3_find_never_returns :
    ∀ fuel, findLoop (2 ^ 15 - 1) satTable (2 ^ 15) fuel 0 0 = none := by
  intro fuel
  have h := sat_find_none fuel 0
  have h1 : (0 : Nat) % 2 ^ 15 = 0 := Nat.zero_mod _
  have h2 : wrap16 ((0 : Nat) : Int) = 0 := by decide
  rw [h1, h2] at h
  exact h

/-- Claim C4: duplicate-insert invariance (first-write-wins).  Inserting a
key already present in a reachable table, with any value, returns the whole
table state unchanged: the first value is retained, no slot changes, and
`size_` is unchanged. -/
theorem C4_duplicate_insert (e : Nat) (he : e < 64) (ops : List (Nat × Nat))
    (k v : Nat) (hk : keyIn (buildTable (2 ^ e) ops).table_ k) :
    (buildTable (2 ^ e) ops).insert k v = buildTable (2 ^ e) ops :=
  insert_dup_noop (good_build e he rfl ops) hk v

theorem C4_witness : (buildTable 2 [(1, 11)]).insert 1 99 = buildTable 2 [(1, 11)] :=
  C4_duplicate_insert 1 (by decide) [(1, 11)] 1 99 ⟨0, by decide, by decide, by decide⟩

/-- Claim C5: capacity sufficiency.  For a table constructed with capacity
`2 ^ e`, no insertion in a sequence of fewer than `2 ^ e` distinct keys is
rejected or dropped: the final size equals the number of insertions (each
insert found an empty slot within its `cap_`-probe budget and incremented
`size_`) and every inserted pair is stored in the table. -/
theorem C5_capacity (e : Nat) (he : e < 64) (ps : List (Nat × Nat))
    (hnd : (ps.map Prod.fst).Nodup) (hlt : ps.length < 2 ^ e) :
    (buildTable (2 ^ e) ps).size_ = ps.length ∧
      ∀ p ∈ ps, pairIn (buildTable (2 ^ e) ps).table_ p.1 p.2 := by
  have hmain := foldl_exact ps [] (BenchRHH.new (2 ^ e)) (good_new e he rfl) rfl
    (fun q w => iff_of_false (not_pairIn_new _ q w) (by simp))
    (by simpa using hnd) (by simpa using Nat.le_of_lt hlt)
  refine ⟨by simpa using hmain.2.1, ?_⟩
  intro p hp
  exact (hmain.2.2 p.1 p.2).mpr (by simpa using hp)

theorem C5_witness : (buildTable 4 [(1, 10), (2, 20)]).size_ = 2 :=
  (C5_capacity 2 (by decide) [(1, 10), (2, 20)] (by decide) (by decide)).1

/-- Claim C6, counterexample.  The claim says a saturated insert reports
`TableFull` to the caller rather than returning as if it succeeded.  In the
code `insert` returns `void`: on the concrete full table of capacity 2
holding keys 1 and 3, inserting the fresh key 5 returns with the state
bit-for-bit unchanged — no error indication of any kind reaches the caller,
and the key is simply gone (a subsequent `find` misses). -/
theorem C6_counterexample :
    (buildTable 2 [(1, 11), (3, 33)]).size_ = 2 ∧
      (buildTable 2 [(1, 11), (3, 33)]).insert 5 99 = buildTable 2 [(1, 11), (3, 33)] ∧
      ((buildTable 2 [(1, 11), (3, 33)]).insert 5 99).find 5 3 = some none := by
  decide

/-- Claim C6, amended: when an insert on a full table exhausts all
`cap_` probes without finding an empty slot or a duplicate, it returns
silently — `insert` has no error channel, the call is indistinguishable
from a successful one, and `size_` is unchanged; no `TableFull` is
reported (the spec §7 requirement is for reimplementations, not met by
this code). -/
theorem C6_amended (e : Nat) (he : e < 64) (ops : List (Nat × Nat)) (k v : Nat)
    (hfull : (buildTable (2 ^ e) ops).size_ = 2 ^ e) :
    ((buildTable (2 ^ e) ops).insert k v).size_ =
      (buildTable (2 ^ e) ops).size_ := by
  have hg := good_build e he rfl ops
  exact insert_full_size hg (by rwa [buildTable_cap]) k v

theorem C6_witness :
    ((buildTable 2 [(1, 11), (3, 33)]).insert 5 99).size_ =
      (buildTable 2 [(1, 11), (3, 33)]).size_ :=
  C6_amended 1 (by decide) [(1, 11), (3, 33)] 5 99 (by decide)

/-- Claim C7, counterexample.  The claim says a saturated insert drops only
the newly supplied pair and leaves the stored set unchanged.  On the full
capacity-2 table holding (1, 11) and (2, 22), inserting (3, 33) triggers a
Robin Hood swap: afterwards slot 1 holds the NEW pair (3, 33), the
previously stored key 2 is gone from every slot (it was present before),
and `size_` still reads 2 — the dropped datum is an old resident, not the
new pair. -/
theorem C7_counterexample :
    (slotAt ((buildTable 2 [(1, 11), (2, 22)]).insert 3 33).table_ 1).occupied = true ∧
      (slotAt ((buildTable 2 [(1, 11), (2, 22)]).insert 3 33).table_ 1).key = 3 ∧
      (slotAt ((buildTable 2 [(1, 11), (2, 22)]).insert 3 33).table_ 1).value = 33 ∧
      (∀ i, i < 2 →
        ¬((slotAt ((buildTable 2 [(1, 11), (2, 22)]).insert 3 33).table_ i).occupied
            = true ∧
          (slotAt ((buildTable 2 [(1, 11), (2, 22)]).insert 3 33).table_ i).key = 2)) ∧
      (buildTable 2 [(1, 11), (2, 22)]).find 2 3 = some (some 22) ∧
      ((buildTable 2 [(1, 11), (2, 22)]).insert 3 33).size_ = 2 := by
  decide

/-- Claim C7, amended: if the table is fully saturated, insert returns
after its `cap_` probes with `size_` unchanged and at most one key/value
pair lost overall — some single pair accounts for the whole difference:
the pairs stored afterwards together with that lost pair are exactly the
old pairs together with the new one.  The lost datum is not necessarily
the new pair: Robin Hood swaps during the failed probe sequence may store
the new key and evict an existing resident, which is then the datum
dropped. -/
theorem C7_amended (e : Nat) (he : e < 64) (ops : List (Nat × Nat)) (k v : Nat)
    (hfull : (buildTable (2 ^ e) ops).size_ = 2 ^ e) :
    ((buildTable (2 ^ e) ops).insert k v).size_ =
        (buildTable (2 ^ e) ops).size_ ∧
      ∃ lq lw, ∀ q w,
        (pairIn ((buildTable (2 ^ e) ops).insert k v).table_ q w ∨
            (q = lq ∧ w = lw)) ↔
          (pairIn (buildTable (2 ^ e) ops).table_ q w ∨ (q = k ∧ w = v)) := by
  have hg := good_build e he rfl ops
  have hc := hg.cpos
  refine ⟨insert_full_size hg (by rwa [buildTable_cap]) k v, ?_⟩
  have hcnt : countOccupied (buildTable (2 ^ e) ops).table_ =
      (buildTable (2 ^ e) ops).table_.length := by
    rw [hg.len, ← hg.size, hfull, buildTable_cap]
  have hall := all_occupied_of_count _ hcnt
  have hall2 : ∀ i, i < (buildTable (2 ^ e) ops).cap_ →
      (slotAt (buildTable (2 ^ e) ops).table_ i).occupied = true := by
    intro i hi
    exact hall i (by rw [hg.len]; exact hi)
  have hidxlt : hash k &&& (buildTable (2 ^ e) ops).mask_ <
      (buildTable (2 ^ e) ops).cap_ := by
    rw [hg.hmask]
    exact Nat.mod_lt _ hc
  have hflag := insertLoop_flag_false (k := k) hg.hmask hc
    (buildTable (2 ^ e) ops).cap_ (buildTable (2 ^ e) ops).table_ ⟨k, v, 0, true⟩
    (hash k &&& (buildTable (2 ^ e) ops).mask_) hg.len hidxlt rfl hall2
  obtain ⟨lq, lw, hiff⟩ := insertLoop_lost (k := k) hg.hmask hc
    (buildTable (2 ^ e) ops).cap_ (buildTable (2 ^ e) ops).table_ ⟨k, v, 0, true⟩
    (hash k &&& (buildTable (2 ^ e) ops).mask_) hg.len hidxlt rfl hflag
  exact ⟨lq, lw, fun q w => hiff q w⟩

theorem C7_witness :
    ((buildTable 2 [(1, 11), (2, 22)]).insert 3 33).size_ =
      (buildTable 2 [(1, 11), (2, 22)]).size_ :=
  (C7_amended 1 (by decide) [(1, 11), (2, 22)] 3 33 (by decide)).1

/-- Claim C8 (supporting theorem for the code bug): the find loop is NOT
bounded by capacity probes — on the saturated capacity-`2 ^ 15` table shape
`satTable`, looking up an absent key with ideal slot 0, the loop is still
running after capacity probes and after every larger probe budget
`2 ^ 15 + j`: the `int16_t` probe distance wraps to `-2 ^ 15` after probe
`2 ^ 15 - 1`, the early-termination test `d > entry.psl` can never fire
again, every slot is occupied, and no key matches, so the source's
`while (true)` loop never returns. -/
theorem C8_find_unbounded :
    ∀ j, findLoop (2 ^ 15 - 1) satTable (2 ^ 15) (2 ^ 15 + j) 0 0 = none := by
  intro j
  have h := sat_find_none (2 ^ 15 + j) 0
  have h1 : (0 : Nat) % 2 ^ 15 = 0 := Nat.zero_mod _
  have h2 : wrap16 ((0 : Nat) : Int) = 0 := by decide
  rw [h1, h2] at h
  exact h

/-- Claim C9, counterexample.  The claim says construction with a zero or
non-power-of-two capacity fails fast with an explicit error and does not
build a table.  The constructor performs no validation: with capacity 3 it
happily builds a 3-slot table with `mask_ = 2`, and with capacity 0 the
`size_t` computation `cap_ - 1` wraps to `2 ^ 64 - 1`. -/
theorem C9_counterexample :
    (BenchRHH.new 3).cap_ = 3 ∧ (BenchRHH.new 3).mask_ = 2 ∧
      (BenchRHH.new 3).table_.length = 3 ∧ (BenchRHH.new 3).size_ = 0 ∧
      (BenchRHH.new 0).cap_ = 0 ∧ (BenchRHH.new 0).mask_ = 2 ^ 64 - 1 := by
  decide

/-- Claim C9, amended: construction performs no capacity validation at all.
Every capacity `c` (zero or not a power of two included) is accepted
without any error: the constructor builds a `c`-slot zeroed table with
`cap_ = c`, `mask_ = c - 1` computed on `size_t` (wrapping for `c = 0`),
and `size_ = 0`.  The power-of-two precondition is entirely the
responsibility of the caller. -/
theorem C9_amended (c : Nat) :
    (BenchRHH.new c).cap_ = c ∧
      (BenchRHH.new c).mask_ = (c + (2 ^ 64 - 1)) % 2 ^ 64 ∧
      (BenchRHH.new c).table_.length = c ∧
      (BenchRHH.new c).size_ = 0 ∧
      ∀ i, i < c → (slotAt (BenchRHH.new c).table_ i).occupied = false := by
  refine ⟨rfl, rfl, by simp [BenchRHH.new], rfl, ?_⟩
  intro i _
  show (slotAt (List.replicate c zeroBucket) i).occupied = false
  rw [slotAt_replicate]
  rfl

theorem C9_witness :
    (BenchRHH.new 3).table_.length = 3 ∧
      (slotAt (BenchRHH.new 3).table_ 1).occupied = false :=
  ⟨(C9_amended 3).2.2.1, (C9_amended 3).2.2.2.2 1 (by decide)⟩

/-- Claim C10: size counter invariant.  After construction `size_ = 0` and
every slot is unoccupied; after any sequence of inserts the counter equals
exactly the number of occupied slots; and an insert increments it by
exactly the growth in the number of occupied slots, i.e. by one exactly
when it placed a record into a previously empty slot.  `find` takes the
state only as input and returns no state, so it can change nothing. -/
theorem C10_size_invariant (c e : Nat) (he : e < 64) (ops : List (Nat × Nat))
    (k v : Nat) :
    ((BenchRHH.new c).size_ = 0 ∧
      ∀ i, i < c → (slotAt (BenchRHH.new c).table_ i).occupied = false) ∧
      (buildTable (2 ^ e) ops).size_ =
        countOccupied (buildTable (2 ^ e) ops).table_ ∧
      ((buildTable (2 ^ e) ops).insert k v).size_ =
        (buildTable (2 ^ e) ops).size_ +
          (countOccupied ((buildTable (2 ^ e) ops).insert k v).table_ -
            countOccupied (buildTable (2 ^ e) ops).table_) := by
  have hg := good_build e he rfl ops
  refine ⟨⟨rfl, ?_⟩, hg.size, insert_size_count hg k v⟩
  intro i _
  show (slotAt (List.replicate c zeroBucket) i).occupied = false
  rw [slotAt_replicate]
  rfl

theorem C10_witness :
    (BenchRHH.new 2).size_ = 0 ∧
      (buildTable 2 [(1, 11)]).size_ = countOccupied (buildTable 2 [(1, 11)]).table_ :=
  ⟨(C10_size_invariant 2 1 (by decide) [(1, 11)] 3 33).1.1,
    (C10_size_invariant 2 1 (by decide) [(1, 11)] 3 33).2.1⟩

end RHH
